import Mathlib

/-!
Verification of the DCA backtest core (calculator.ts, optimizer.ts).

Shallow embedding conventions:
* JS numbers are modelled as rationals (ℚ); the source performs only
  field arithmetic, `Math.max`/`Math.min`, `Math.floor` and `Math.round`,
  so every quantity stays rational.  Invariants claimed "within floating
  tolerance" hold exactly in this model.
* `Date` values are their millisecond timestamps (ℤ), exactly what the
  source manipulates via `getTime()` / `new Date(ms)`.
* `new Date(ts).toISOString().split('T')[0]` — the UTC calendar day of a
  timestamp — is modelled by floor division of the timestamp by 86400000
  (JS `Date` time is UTC milliseconds without leap seconds, so two
  timestamps print the same `YYYY-MM-DD` iff their floor-quotients agree).
* A JS `Map` is an insertion-ordered association list; `map.set` replaces
  the value in place when the key is present and appends otherwise.
* `Array.prototype.sort` with a numeric comparator is a stable sort on a
  total preorder; it is modelled by `List.insertionSort`, which Mathlib
  proves stable and sorting.
* JS `%` on the non-negative integers produced by the simulator's
  day arithmetic agrees with `Int.emod` (`%` on ℤ).
-/

/-- Model of JS `Math.round` (round half towards +∞) on rationals. -/
def jsRound (x : ℚ) : ℤ := ⌊x + 1/2⌋

/-- Model of the UTC calendar day of a millisecond timestamp, i.e. of the
`YYYY-MM-DD` key `new Date(ts).toISOString().split('T')[0]` used by the
aggregator. -/
def dateKey (ts : ℤ) : ℤ := Int.fdiv ts 86400000

/-- Embeds the `DrawdownTier` interface of `types/index.ts`. -/
structure DrawdownTier where
  id : String
  threshold : ℚ
  multiplier : ℚ
  deriving DecidableEq, Repr

instance : IsTotal DrawdownTier (fun a b => a.threshold ≤ b.threshold) :=
  ⟨fun a b => le_total a.threshold b.threshold⟩

instance : IsTrans DrawdownTier (fun a b => a.threshold ≤ b.threshold) :=
  ⟨fun _ _ _ h h2 => le_trans h h2⟩

/-- Embeds `getMultiplier` (calculator.ts lines 26–39): sort a copy of the
tier table ascending by threshold, return the multiplier of the first tier
with `threshold >= drawdown`, and fall back to the neutral multiplier 1. -/
def getMultiplier (drawdown : ℚ) (tiers : List DrawdownTier) : ℚ :=
  let sortedTiers := List.insertionSort (fun a b => a.threshold ≤ b.threshold) tiers
  match sortedTiers.find? (fun t => decide (drawdown ≤ t.threshold)) with
  | some t => t.multiplier
  | none => 1

/-- Embeds `getDefaultTiers` (calculator.ts lines 181–188). -/
def getDefaultTiers : List DrawdownTier :=
  [⟨"1", 0, 1⟩, ⟨"2", -1/10, 12/10⟩, ⟨"3", -2/10, 15/10⟩, ⟨"4", -3/10, 2⟩]

/-- Embeds the `PriceDataPoint` interface of `types/index.ts`:
a millisecond Unix timestamp and a USD price. -/
structure PriceDataPoint where
  timestamp : ℤ
  price : ℚ
  deriving DecidableEq, Repr

instance : IsTotal PriceDataPoint (fun a b => a.timestamp ≤ b.timestamp) :=
  ⟨fun a b => le_total a.timestamp b.timestamp⟩

instance : IsTrans PriceDataPoint (fun a b => a.timestamp ≤ b.timestamp) :=
  ⟨fun _ _ _ h h2 => le_trans h h2⟩

/-- Model of `Map.set` on an insertion-ordered association list keyed by the
calendar-day string: replace in place when the key is present, append
otherwise (exactly the JS `Map` semantics used by `aggregateDailyPrices`). -/
def mapSet (m : List (ℤ × PriceDataPoint)) (k : ℤ) (p : PriceDataPoint) :
    List (ℤ × PriceDataPoint) :=
  match m with
  | [] => [(k, p)]
  | (k0, p0) :: rest =>
    if k0 = k then (k0, p) :: rest else (k0, p0) :: mapSet rest k p

/-- The `dailyMap` built by the first loop of `aggregateDailyPrices`
(calculator.ts lines 46–52): fold `Map.set dateKey point` over the input
in order. -/
def buildDailyMap (prices : List PriceDataPoint) : List (ℤ × PriceDataPoint) :=
  prices.foldl (fun m p => mapSet m (dateKey p.timestamp) p) []

/-- Embeds `aggregateDailyPrices` (calculator.ts lines 45–57): build the
per-day map (later entries of the same day overwrite earlier ones), then
sort the retained values ascending by timestamp. -/
def aggregateDailyPrices (prices : List PriceDataPoint) : List PriceDataPoint :=
  List.insertionSort (fun a b => a.timestamp ≤ b.timestamp)
    ((buildDailyMap prices).map Prod.snd)

/-- Embeds the fields of `BacktestConfig` (types/index.ts) that the
simulator reads; dates are millisecond timestamps (`Date.getTime()`). -/
structure BacktestConfig where
  startDate : ℤ
  endDate : ℤ
  initialCapital : ℚ
  baseDcaAmount : ℚ
  dcaFrequency : ℤ
  deriving DecidableEq, Repr

/-- Embeds the `TradeRecord` interface of `types/index.ts`. -/
structure TradeRecord where
  date : ℤ
  price : ℚ
  ath : ℚ
  drawdown : ℚ
  multiplier : ℚ
  amount : ℚ
  coinsBought : ℚ
  totalCoins : ℚ
  remainingCash : ℚ
  insufficientFunds : Bool
  deriving DecidableEq, Repr

/-- Embeds the result fields computed by `runBacktest`
(calculator.ts lines 165–175); `fundsDepletedDate` is optional. -/
structure BacktestResult where
  trades : List TradeRecord
  totalInvested : ℚ
  totalCoins : ℚ
  averagePrice : ℚ
  finalValue : ℚ
  roi : ℚ
  maxDrawdown : ℚ
  fundsDepleted : Bool
  fundsDepletedDate : Option ℤ
  deriving DecidableEq, Repr

/-- The mutable locals of `runBacktest`'s main loop
(calculator.ts lines 71–80), gathered into one state record. -/
structure SimState where
  runningAth : ℚ
  remainingCash : ℚ
  totalCoins : ℚ
  totalInvested : ℚ
  maxDrawdown : ℚ
  fundsDepleted : Bool
  fundsDepletedDate : Option ℤ
  trades : List TradeRecord
  deriving DecidableEq, Repr

/-- Initial simulator state (calculator.ts lines 72–80). -/
def initState (config : BacktestConfig) : SimState :=
  { runningAth := 0
    remainingCash := config.initialCapital
    totalCoins := 0
    totalInvested := 0
    maxDrawdown := 0
    fundsDepleted := false
    fundsDepletedDate := none
    trades := [] }

/-- One iteration of `runBacktest`'s loop over the daily prices
(calculator.ts lines 86–155), as a state transformer. -/
def step (config : BacktestConfig) (tiers : List DrawdownTier)
    (s : SimState) (p : PriceDataPoint) : SimState :=
  let runningAth := max s.runningAth p.price
  let drawdown := if 0 < runningAth then (p.price - runningAth) / runningAth else 0
  if p.timestamp < config.startDate then
    { s with runningAth := runningAth }
  else
    let maxDrawdown := min s.maxDrawdown drawdown
    let daysSinceStart := Int.fdiv (p.timestamp - config.startDate) 86400000
    if ¬ (0 ≤ daysSinceStart ∧ daysSinceStart % config.dcaFrequency = 0) then
      { s with runningAth := runningAth, maxDrawdown := maxDrawdown }
    else
      let multiplier := getMultiplier drawdown tiers
      let buyAmount := config.baseDcaAmount * multiplier
      let insufficientFunds := s.remainingCash < buyAmount
      let fundsDepleted := if insufficientFunds ∧ ¬ s.fundsDepleted then true else s.fundsDepleted
      let fundsDepletedDate :=
        if insufficientFunds ∧ ¬ s.fundsDepleted then some p.timestamp else s.fundsDepletedDate
      let actualBuyAmount := if insufficientFunds then max 0 s.remainingCash else buyAmount
      let coinsBought := actualBuyAmount / p.price
      let remainingCash :=
        if 0 < actualBuyAmount then s.remainingCash - actualBuyAmount else s.remainingCash
      let totalCoins := if 0 < actualBuyAmount then s.totalCoins + coinsBought else s.totalCoins
      let totalInvested :=
        if 0 < actualBuyAmount then s.totalInvested + actualBuyAmount else s.totalInvested
      { runningAth := runningAth
        remainingCash := remainingCash
        totalCoins := totalCoins
        totalInvested := totalInvested
        maxDrawdown := maxDrawdown
        fundsDepleted := fundsDepleted
        fundsDepletedDate := fundsDepletedDate
        trades := s.trades ++
          [{ date := p.timestamp
             price := p.price
             ath := runningAth
             drawdown := drawdown
             multiplier := multiplier
             amount := actualBuyAmount
             coinsBought := coinsBought
             totalCoins := totalCoins
             remainingCash := remainingCash
             insufficientFunds := insufficientFunds }] }

/-- Final state of the simulator loop on the aggregated daily series. -/
def finalState (prices : List PriceDataPoint) (config : BacktestConfig)
    (tiers : List DrawdownTier) : SimState :=
  (aggregateDailyPrices prices).foldl (step config tiers) (initState config)

/-- Embeds `runBacktest` (calculator.ts lines 63–176): aggregate the raw
prices into a daily series, fold the trading step over it, then assemble
the summary (note `roi` and `maxDrawdown` are scaled by 100 into percent,
exactly as in the source). -/
def runBacktest (prices : List PriceDataPoint) (config : BacktestConfig)
    (tiers : List DrawdownTier) : BacktestResult :=
  let dailyPrices := aggregateDailyPrices prices
  let fs := dailyPrices.foldl (step config tiers) (initState config)
  let lastPrice := ((dailyPrices.getLast?).map PriceDataPoint.price).getD 0
  let finalValue := fs.totalCoins * lastPrice
  let averagePrice := if 0 < fs.totalInvested then fs.totalInvested / fs.totalCoins else 0
  let roi := if 0 < fs.totalInvested then (finalValue - fs.totalInvested) / fs.totalInvested * 100 else 0
  { trades := fs.trades
    totalInvested := fs.totalInvested
    totalCoins := fs.totalCoins
    averagePrice := averagePrice
    finalValue := finalValue
    roi := roi
    maxDrawdown := fs.maxDrawdown * 100
    fundsDepleted := fs.fundsDepleted
    fundsDepletedDate := fs.fundsDepletedDate }

/-! ### Tier resolver lemmas (claims C2, C3, C10) -/

/-- If the scan of `getMultiplier` finds no tier, every tier's threshold is
strictly below the drawdown. -/
theorem find?_cover_eq_none {d : ℚ} {l : List DrawdownTier}
    (h : l.find? (fun t => decide (d ≤ t.threshold)) = none) :
    ∀ t ∈ l, t.threshold < d := by
  intro t ht
  have h2 := List.find?_eq_none.mp h t ht
  simpa using h2

/-- On a list sorted ascending by threshold, the first tier found with
`threshold ≥ d` covers `d` and has the least threshold among all covering
tiers of the list. -/
theorem find?_cover_min {d : ℚ} : ∀ {l : List DrawdownTier},
    l.Pairwise (fun a b => a.threshold ≤ b.threshold) →
    ∀ {t}, l.find? (fun u => decide (d ≤ u.threshold)) = some t →
    t ∈ l ∧ d ≤ t.threshold ∧ ∀ u ∈ l, d ≤ u.threshold → t.threshold ≤ u.threshold := by
  intro l
  induction l with
  | nil => intro _ t hfind; simp at hfind
  | cons x xs ih =>
    intro hpair t hfind
    rw [List.pairwise_cons] at hpair
    by_cases hx : d ≤ x.threshold
    · rw [List.find?_cons_of_pos _ (by simpa using hx)] at hfind
      obtain rfl : x = t := by simpa using hfind
      refine ⟨List.mem_cons_self _ _, hx, ?_⟩
      intro u hu _
      rcases List.mem_cons.mp hu with rfl | hu2
      · exact le_refl _
      · exact hpair.1 u hu2
    · rw [List.find?_cons_of_neg _ (by simpa using hx)] at hfind
      obtain ⟨hmem, hcov, hmin⟩ := ih hpair.2 hfind
      refine ⟨List.mem_cons_of_mem _ hmem, hcov, ?_⟩
      intro u hu hcu
      rcases List.mem_cons.mp hu with rfl | hu2
      · exact absurd hcu hx
      · exact hmin u hu2 hcu

/-- C2: for every drawdown `d ≤ 0` and tier list, `getMultiplier` returns 1
when no tier has `threshold ≥ d` (in particular when the list is empty), and
otherwise returns the multiplier of a tier whose threshold is least among
all tiers with `threshold ≥ d`. -/
theorem c2_getMultiplier_spec (d : ℚ) (tiers : List DrawdownTier) (hd : d ≤ 0) :
    ((∀ t ∈ tiers, t.threshold < d) → getMultiplier d tiers = 1) ∧
    (∀ t0 ∈ tiers, d ≤ t0.threshold →
      ∃ t ∈ tiers, d ≤ t.threshold ∧
        (∀ u ∈ tiers, d ≤ u.threshold → t.threshold ≤ u.threshold) ∧
        getMultiplier d tiers = t.multiplier) := by
  have hperm := List.perm_insertionSort (fun a b : DrawdownTier => a.threshold ≤ b.threshold) tiers
  have hsorted : (List.insertionSort (fun a b : DrawdownTier => a.threshold ≤ b.threshold)
      tiers).Pairwise (fun a b => a.threshold ≤ b.threshold) :=
    List.sorted_insertionSort _ tiers
  constructor
  · intro hall
    have hnone : (List.insertionSort (fun a b : DrawdownTier => a.threshold ≤ b.threshold)
        tiers).find? (fun t => decide (d ≤ t.threshold)) = none := by
      apply List.find?_eq_none.mpr
      intro t ht
      simpa using not_le.mpr (hall t (hperm.mem_iff.mp ht))
    simp [getMultiplier, hnone]
  · intro t0 ht0 hcov
    cases hfind : (List.insertionSort (fun a b : DrawdownTier => a.threshold ≤ b.threshold)
        tiers).find? (fun t => decide (d ≤ t.threshold)) with
    | none =>
      exact absurd hcov (not_le.mpr (find?_cover_eq_none hfind t0 (hperm.mem_iff.mpr ht0)))
    | some t =>
      obtain ⟨hmem, hcovt, hmin⟩ := find?_cover_min hsorted hfind
      refine ⟨t, hperm.mem_iff.mp hmem, hcovt, ?_, ?_⟩
      · intro u hu hcu
        exact hmin u (hperm.mem_iff.mpr hu) hcu
      · simp [getMultiplier, hfind]

/-- Witness for C2: concrete application to the default tier table at a
drawdown of −15%. -/
theorem c2_getMultiplier_spec_witness :
    ∃ t ∈ getDefaultTiers, (-15/100 : ℚ) ≤ t.threshold ∧
      (∀ u ∈ getDefaultTiers, (-15/100 : ℚ) ≤ u.threshold → t.threshold ≤ u.threshold) ∧
      getMultiplier (-15/100) getDefaultTiers = t.multiplier :=
  (c2_getMultiplier_spec (-15/100) getDefaultTiers (by norm_num)).2
    ⟨"2", -1/10, 12/10⟩ (by simp [getDefaultTiers]) (by norm_num)

/-- C3 counterexample: on a single tier at threshold −0.1,
`getMultiplier (−0.95)` returns the tier's multiplier 1.2, not the neutral
multiplier 1 claimed by the spec — the tier does cover the drawdown since
−0.1 ≥ −0.95. -/
theorem c3_counterexample :
    getMultiplier (-95/100) [⟨"t1", -1/10, 12/10⟩] = 12/10 ∧ (12/10 : ℚ) ≠ 1 := by
  constructor
  · norm_num [getMultiplier, List.insertionSort, List.orderedInsert, List.find?]
  · norm_num

/-- C3 (amended): a single tier at threshold −0.1 does cover a drawdown of
−0.95 (since −0.1 ≥ −0.95), so `getMultiplier` returns its multiplier 1.2
rather than the neutral multiplier. -/
theorem c3_amended :
    (-95/100 : ℚ) ≤ (-1/10 : ℚ) ∧
    getMultiplier (-95/100) [⟨"t1", -1/10, 12/10⟩] = 12/10 := by
  constructor
  · norm_num
  · norm_num [getMultiplier, List.insertionSort, List.orderedInsert, List.find?]

/-! ### A heap model for the aliasing claim C10.

The source's `getMultiplier` receives a reference to the caller's tier
array and sorts a spread copy, leaving the caller's array untouched.  To
state this as a frame property we model JS arrays as references into an
explicit heap (a list of arrays): `tiers spread` allocates a fresh array at
the end of the heap holding a copy, and `Array.prototype.sort` mutates its
receiver in place. -/

/-- Dereference an array reference in the heap. -/
def readArr (h : List (List DrawdownTier)) (r : ℕ) : List DrawdownTier := h.getD r []

/-- Write an array reference in the heap (in-place array mutation). -/
def writeArr (h : List (List DrawdownTier)) (r : ℕ) (v : List DrawdownTier) :
    List (List DrawdownTier) := h.set r v

/-- Embeds a call to `getMultiplier` (calculator.ts lines 26–39) against the
heap model: `const sortedTiers = [...tiers]` allocates a fresh copy,
`.sort(...)` mutates that fresh array in place, then the scan runs on the
sorted copy.  The call returns the multiplier and the post-call heap. -/
def getMultiplierCall (drawdown : ℚ) (h : List (List DrawdownTier)) (r : ℕ) :
    ℚ × List (List DrawdownTier) :=
  let copyRef := h.length
  let h1 := h ++ [readArr h r]
  let h2 := writeArr h1 copyRef
    (List.insertionSort (fun a b => a.threshold ≤ b.threshold) (readArr h1 copyRef))
  let sortedTiers := readArr h2 copyRef
  (match sortedTiers.find? (fun t => decide (drawdown ≤ t.threshold)) with
   | some t => t.multiplier
   | none => 1, h2)

/-- C10: a call to `getMultiplier` leaves the caller's tier array unchanged
in the heap (it sorts a fresh copy), and its value is the value of the pure
function on the caller's array.  Callers may keep sharing one tier table
across calls. -/
theorem c10_getMultiplier_frame (drawdown : ℚ) (h : List (List DrawdownTier))
    (r : ℕ) (hr : r < h.length) :
    readArr (getMultiplierCall drawdown h r).2 r = readArr h r ∧
    (getMultiplierCall drawdown h r).1 = getMultiplier drawdown (readArr h r) := by
  have hcopy : (h ++ [h.getD r []]).getD h.length [] = h.getD r [] := by
    rw [List.getD_eq_getElem _ _ (by simp)]
    simp
  constructor
  · show ((h ++ [h.getD r []]).set h.length
        (List.insertionSort (fun a b => a.threshold ≤ b.threshold)
          ((h ++ [h.getD r []]).getD h.length []))).getD r [] = h.getD r []
    rw [List.getD_eq_getElem _ _ (by simp; omega)]
    rw [List.getElem_set]
    rw [if_neg (by omega)]
    rw [List.getElem_append_left hr]
    exact (List.getD_eq_getElem _ _ hr).symm
  · have hfinal : ((h ++ [h.getD r []]).set h.length
        (List.insertionSort (fun a b => a.threshold ≤ b.threshold)
          ((h ++ [h.getD r []]).getD h.length []))).getD h.length [] =
        List.insertionSort (fun a b => a.threshold ≤ b.threshold) (h.getD r []) := by
      rw [hcopy]
      rw [List.getD_eq_getElem _ _ (by simp)]
      rw [List.getElem_set]
      rw [if_pos rfl]
    show (match (((h ++ [h.getD r []]).set h.length
        (List.insertionSort (fun a b => a.threshold ≤ b.threshold)
          ((h ++ [h.getD r []]).getD h.length []))).getD h.length []).find?
          (fun t => decide (drawdown ≤ t.threshold)) with
      | some t => t.multiplier
      | none => 1) = getMultiplier drawdown (h.getD r [])
    rw [hfinal]
    rfl

/-- Witness for C10: concrete application on a one-array heap holding the
default tier table. -/
theorem c10_getMultiplier_frame_witness :
    readArr (getMultiplierCall (-15/100) [getDefaultTiers] 0).2 0 = readArr [getDefaultTiers] 0 ∧
    (getMultiplierCall (-15/100) [getDefaultTiers] 0).1 =
      getMultiplier (-15/100) (readArr [getDefaultTiers] 0) :=
  c10_getMultiplier_frame (-15/100) [getDefaultTiers] 0 (by simp)

/-! ### Genome codec and genetic operators (optimizer.ts), claims C7 and C9.

The source draws randomness from the ambient `Math.random()`.  The
embedding threads every random draw in explicitly: a list of samples in
`[0,1)` for genome generation, a coin-flip list for crossover, and an
index plus one sample for mutation.  Each theorem quantifies over all
possible draws, hence covers every run of the stochastic source code. -/

/-- Model of `Math.round(val*10)/10` — quantization to the 0.1 step used
throughout optimizer.ts. -/
def quantize (x : ℚ) : ℚ := ((jsRound (x * 10) : ℤ) : ℚ) / 10

/-- Embeds `getRandomMultiplier` (optimizer.ts lines 47–50); `r` is the
`Math.random()` sample. -/
def getRandomMultiplier (r : ℚ) : ℚ := quantize (1 + r * 2)

/-- Embeds the fixed drawdown-band partition `STEPS_MAPPING`
(optimizer.ts lines 38–44). -/
def STEPS_MAPPING : List (List ℤ) :=
  [[-5, -10, -15],
   [-20], [-25], [-30], [-35],
   [-40], [-45], [-50], [-55],
   [-60], [-65], [-70], [-75],
   [-80], [-85], [-90]]

/-- Embeds `genesToTiers` (optimizer.ts lines 65–78): gene `i` owns the
thresholds of band `i`, each emitted as a tier at `threshold/100` carrying
that gene as multiplier. -/
def genesToTiers (genes : List ℚ) : List DrawdownTier :=
  (genes.zip STEPS_MAPPING).bind fun g =>
    g.2.map fun threshold => ⟨"gen_" ++ toString threshold, (threshold : ℚ) / 100, g.1⟩

/-- Embeds the `StrategyGenome` interface (optimizer.ts lines 12–22).
The source initializes `fitness` to `-Infinity`, a pre-evaluation sentinel
always overwritten by the evaluation phase before any ranking; the model
uses 0 for the sentinel, and every theorem below quantifies over all
fitness values.  The optional cached-metric fields are omitted: no claim
mentions them. -/
structure StrategyGenome where
  genes : List ℚ
  fitness : ℚ
  tiers : List DrawdownTier
  deriving DecidableEq, Repr

/-- Embeds `generateMonotonicGenome` (optimizer.ts lines 52–63): 16 random
multipliers, sorted ascending; `rs` is the stream of `Math.random()`
samples. -/
def generateMonotonicGenome (rs : List ℚ) : StrategyGenome :=
  let genes := List.insertionSort (fun a b : ℚ => a ≤ b) ((rs.take 16).map getRandomMultiplier)
  { genes := genes, fitness := 0, tiers := genesToTiers genes }

/-- Embeds `crossover` (optimizer.ts lines 91–102): gene-wise coin-flip
selection between the parents, then a full ascending re-sort; `flips` is
the list of `Math.random() < 0.5` draws. -/
def crossover (flips : List Bool) (parentA parentB : StrategyGenome) : StrategyGenome :=
  let rawGenes := (flips.zip (parentA.genes.zip parentB.genes)).map
    fun fab => if fab.1 then fab.2.1 else fab.2.2
  let genes := List.insertionSort (fun a b : ℚ => a ≤ b) rawGenes
  { genes := genes, fitness := 0, tiers := genesToTiers genes }

/-- Embeds `mutate` (optimizer.ts lines 80–89): pick index `idx`, bound the
new value by the immediate neighbors (1.0 below index 0, 3.0 above index
15), resample uniformly inside the interval when it is non-degenerate, and
re-derive the tiers; `r` is the `Math.random()` sample. -/
def mutate (idx : ℕ) (r : ℚ) (genome : StrategyGenome) : StrategyGenome :=
  let lowerBound := if idx = 0 then 1 else genome.genes.getD (idx - 1) 0
  let upperBound := if idx = 15 then 3 else genome.genes.getD (idx + 1) 0
  let genes :=
    if lowerBound < upperBound then
      genome.genes.set idx (quantize (lowerBound + r * (upperBound - lowerBound)))
    else genome.genes
  { genome with genes := genes, tiers := genesToTiers genes }

/-- Multiples of the 0.1 quantization step. -/
def IsTenth (x : ℚ) : Prop := ∃ z : ℤ, x = (z : ℚ) / 10

/-- Quantizing cannot fall below a lower bound that is itself a multiple
of 0.1. -/
theorem le_quantize_of_tenth {a x : ℚ} (ha : IsTenth a) (h : a ≤ x) : a ≤ quantize x := by
  obtain ⟨z, rfl⟩ := ha
  have hz : (z : ℚ) ≤ x * 10 := by linarith
  have h2 : (z : ℤ) ≤ ⌊x * 10 + 1/2⌋ := Int.le_floor.mpr (by linarith)
  have h3 : ((z : ℤ) : ℚ) ≤ ((⌊x * 10 + 1/2⌋ : ℤ) : ℚ) := by exact_mod_cast h2
  unfold quantize jsRound
  linarith

/-- Quantizing cannot exceed an upper bound that is itself a multiple
of 0.1. -/
theorem quantize_le_of_tenth {b x : ℚ} (hb : IsTenth b) (h : x ≤ b) : quantize x ≤ b := by
  obtain ⟨z, rfl⟩ := hb
  have hz : x * 10 ≤ (z : ℚ) := by linarith
  have h2 : ⌊x * 10 + 1/2⌋ ≤ ⌊((z : ℚ)) + 1/2⌋ := Int.floor_le_floor (by linarith)
  have h3 : ⌊((z : ℚ)) + 1/2⌋ = z := by
    rw [Int.floor_eq_iff]
    constructor
    · norm_num
    · norm_num
  rw [h3] at h2
  have h4 : ((⌊x * 10 + 1/2⌋ : ℤ) : ℚ) ≤ ((z : ℤ) : ℚ) := by exact_mod_cast h2
  unfold quantize jsRound
  linarith

/-- Setting index `idx` of a sorted list to a value bounded by its
immediate neighbors keeps the list sorted. -/
theorem sorted_set_of_bounds {l : List ℚ} {idx : ℕ} {v : ℚ}
    (hs : List.Sorted (fun a b : ℚ => a ≤ b) l) (hidx : idx < l.length)
    (hlow : ∀ (j : ℕ) (h : j < l.length), j + 1 = idx → l.get ⟨j, h⟩ ≤ v)
    (hhigh : ∀ h : idx + 1 < l.length, v ≤ l.get ⟨idx + 1, h⟩) :
    List.Sorted (fun a b : ℚ => a ≤ b) (l.set idx v) := by
  rw [List.Sorted, ← List.chain'_iff_pairwise] at hs ⊢
  rw [List.chain'_iff_get] at hs ⊢
  intro i hi
  have hlen : (l.set idx v).length = l.length := List.length_set l idx v
  rw [hlen] at hi
  have hi1 : i < l.length := by omega
  have hi2 : i + 1 < l.length := by omega
  simp only [List.get_eq_getElem]
  rw [List.getElem_set, List.getElem_set]
  by_cases he1 : idx = i
  · rw [if_pos he1, if_neg (by omega)]
    have := hhigh (by omega)
    simp only [List.get_eq_getElem] at this
    subst he1
    exact this
  · rw [if_neg he1]
    by_cases he2 : idx = i + 1
    · rw [if_pos he2]
      have := hlow i hi1 (by omega)
      simp only [List.get_eq_getElem] at this
      exact this
    · rw [if_neg he2]
      have := hs i (by omega)
      simp only [List.get_eq_getElem] at this
      exact this

/-- C7: genomes produced by random generation, by crossover of monotone
parents, and by mutation of a monotone, 0.1-quantized genome with genes in
[1, 3] all have non-decreasing gene vectors. -/
theorem c7_monotonicity :
    (∀ rs : List ℚ, List.Sorted (fun a b : ℚ => a ≤ b) (generateMonotonicGenome rs).genes) ∧
    (∀ (flips : List Bool) (parentA parentB : StrategyGenome),
      List.Sorted (fun a b : ℚ => a ≤ b) parentA.genes →
      List.Sorted (fun a b : ℚ => a ≤ b) parentB.genes →
      List.Sorted (fun a b : ℚ => a ≤ b) (crossover flips parentA parentB).genes) ∧
    (∀ (idx : ℕ) (r : ℚ) (g : StrategyGenome),
      g.genes.length = 16 → idx < 16 →
      List.Sorted (fun a b : ℚ => a ≤ b) g.genes →
      (∀ x ∈ g.genes, 1 ≤ x ∧ x ≤ 3 ∧ IsTenth x) →
      0 ≤ r → r < 1 →
      List.Sorted (fun a b : ℚ => a ≤ b) (mutate idx r g).genes) := by
  refine ⟨?_, ?_, ?_⟩
  · intro rs
    exact List.sorted_insertionSort _ _
  · intro flips parentA parentB _ _
    exact List.sorted_insertionSort _ _
  · intro idx r g hlen hidx hs hbounds hr0 hr1
    simp only [mutate]
    by_cases hlt : (if idx = 0 then (1:ℚ) else g.genes.getD (idx - 1) 0) <
        (if idx = 15 then (3:ℚ) else g.genes.getD (idx + 1) 0)
    · rw [if_pos hlt]
      set lower := if idx = 0 then (1:ℚ) else g.genes.getD (idx - 1) 0 with hlowdef
      set upper := if idx = 15 then (3:ℚ) else g.genes.getD (idx + 1) 0 with hupdef
      have hval1 : lower ≤ lower + r * (upper - lower) := by nlinarith
      have hval2 : lower + r * (upper - lower) ≤ upper := by nlinarith
      apply sorted_set_of_bounds hs (by omega)
      · intro j hj hji
        have hne0 : idx ≠ 0 := by omega
        have hidx1 : idx - 1 = j := by omega
        have hgetd : g.genes.getD (idx - 1) 0 = g.genes.get ⟨j, hj⟩ := by
          rw [hidx1, List.getD_eq_getElem _ _ hj]
          simp
        have hmemlow : g.genes.get ⟨j, hj⟩ ∈ g.genes := List.get_mem _ _ _
        have hlower : lower = g.genes.get ⟨j, hj⟩ := by
          rw [hlowdef, if_neg hne0, hgetd]
        obtain ⟨_, _, htenth⟩ := hbounds _ hmemlow
        rw [← hlower] at htenth ⊢
        exact le_quantize_of_tenth htenth hval1
      · intro hlt2
        have hne15 : idx ≠ 15 := by omega
        have hgetd : g.genes.getD (idx + 1) 0 = g.genes.get ⟨idx + 1, hlt2⟩ := by
          rw [List.getD_eq_getElem _ _ hlt2]
          simp
        have hmemhigh : g.genes.get ⟨idx + 1, hlt2⟩ ∈ g.genes := List.get_mem _ _ _
        have hupper : upper = g.genes.get ⟨idx + 1, hlt2⟩ := by
          rw [hupdef, if_neg hne15, hgetd]
        obtain ⟨_, _, htenth⟩ := hbounds _ hmemhigh
        rw [← hupper] at htenth ⊢
        exact quantize_le_of_tenth htenth hval2
    · rw [if_neg hlt]
      exact hs

/-- Witness for C7: concrete applications of all three parts — an empty
random stream, a crossover of two freshly generated genomes, and a
mutation of the constant genome 1.0¹⁶ at index 5 with sample 1/2. -/
theorem c7_monotonicity_witness :
    List.Sorted (fun a b : ℚ => a ≤ b) (generateMonotonicGenome []).genes ∧
    List.Sorted (fun a b : ℚ => a ≤ b)
      (crossover [true, false] (generateMonotonicGenome []) (generateMonotonicGenome [])).genes ∧
    List.Sorted (fun a b : ℚ => a ≤ b)
      (mutate 5 (1/2) ⟨List.replicate 16 1, 0, []⟩).genes := by
  refine ⟨c7_monotonicity.1 [], ?_, ?_⟩
  · exact c7_monotonicity.2.1 [true, false] _ _ (c7_monotonicity.1 []) (c7_monotonicity.1 [])
  · apply c7_monotonicity.2.2 5 (1/2) ⟨List.replicate 16 1, 0, []⟩
    · simp
    · norm_num
    · exact List.pairwise_replicate.mpr (Or.inr (le_refl 1))
    · intro x hx
      rw [List.mem_replicate] at hx
      refine ⟨by rw [hx.2], by rw [hx.2]; norm_num, ⟨10, by rw [hx.2]; norm_num⟩⟩
    · norm_num
    · norm_num

/-! ### Final ranking and dedup stage of the optimizer (claim C9). -/

/-- Embeds the gene signature `genome.genes.map(g => g.toFixed(1)).join('|')`
(optimizer.ts line 194): two signatures are equal exactly when the gene
vectors agree element-wise after rounding to one decimal place, so the
signature is modelled as the list of genes rounded to tenths. -/
def genomeSignature (g : StrategyGenome) : List ℤ := g.genes.map (fun q => jsRound (q * 10))

instance : IsTotal StrategyGenome (fun a b => b.fitness ≤ a.fitness) :=
  ⟨fun a b => le_total b.fitness a.fitness⟩

instance : IsTrans StrategyGenome (fun a b => b.fitness ≤ a.fitness) :=
  ⟨fun _ _ _ h h2 => le_trans h2 h⟩

/-- The final `population.sort((a, b) => b.fitness - a.fitness)` of
optimizer.ts line 186: stable sort descending by fitness. -/
def sortByFitnessDesc (pop : List StrategyGenome) : List StrategyGenome :=
  List.insertionSort (fun a b => b.fitness ≤ a.fitness) pop

/-- Embeds the dedup loop of `runGeneticOptimizer` (optimizer.ts lines
189–203): walk the ranked population, keep a genome when its signature is
unseen, and break as soon as 3 strategies are collected. -/
def collectTop : List StrategyGenome → List (List ℤ) → List StrategyGenome →
    List StrategyGenome
  | [], _, acc => acc
  | g :: rest, seen, acc =>
    let seen2 := if genomeSignature g ∈ seen then seen else genomeSignature g :: seen
    let acc2 := if genomeSignature g ∈ seen then acc else acc ++ [g]
    if 3 ≤ acc2.length then acc2 else collectTop rest seen2 acc2

/-- Embeds the `OptimizationResult` interface (optimizer.ts lines 24–28);
`bestGenome` is `uniqueStrategies[0]`, which in JS is undefined on an empty
population, hence an `Option` in the model. -/
structure OptimizationResult where
  bestGenome : Option StrategyGenome
  generationsRun : ℕ
  topStrategies : List StrategyGenome
  deriving DecidableEq, Repr

/-- Embeds the final stage of `runGeneticOptimizer` (optimizer.ts lines
185–209): final re-sort by descending fitness, dedup walk, result
assembly.  The preceding evolution loop draws on the ambient random source
and produces some final population; theorems below quantify over every
possible population and hence cover every run. -/
def runGeneticOptimizerFinal (population : List StrategyGenome) : OptimizationResult :=
  let ranked := sortByFitnessDesc population
  let uniqueStrategies := collectTop ranked [] []
  { bestGenome := uniqueStrategies.head?
    generationsRun := 50
    topStrategies := uniqueStrategies }

/-- Specification-level dedup: keep the first genome of each signature not
yet seen, with no early stop. -/
def dedupBySignature (seen : List (List ℤ)) : List StrategyGenome → List StrategyGenome
  | [] => []
  | g :: rest =>
    if genomeSignature g ∈ seen then dedupBySignature seen rest
    else g :: dedupBySignature (genomeSignature g :: seen) rest

/-- The break-at-3 dedup loop computes the first three entries of the full
signature dedup. -/
theorem collectTop_eq_dedup_take :
    ∀ (l : List StrategyGenome) (seen : List (List ℤ)) (acc : List StrategyGenome),
      acc.length < 3 →
      collectTop l seen acc = acc ++ (dedupBySignature seen l).take (3 - acc.length) := by
  intro l
  induction l with
  | nil => intro seen acc _; simp [collectTop, dedupBySignature]
  | cons g rest ih =>
    intro seen acc hacc
    by_cases hseen : genomeSignature g ∈ seen
    · rw [collectTop, dedupBySignature, if_pos hseen, if_pos hseen, if_pos hseen]
      rw [if_neg (by omega)]
      exact ih seen acc hacc
    · rw [collectTop, dedupBySignature, if_neg hseen, if_neg hseen, if_neg hseen]
      have hlen2 : (acc ++ [g]).length = acc.length + 1 := by simp
      by_cases h3 : 3 ≤ (acc ++ [g]).length
      · rw [if_pos h3]
        have hacc2 : acc.length = 2 := by omega
        have htake : 3 - acc.length = 1 := by omega
        rw [htake]
        simp [List.take_succ_cons]
      · rw [if_neg h3]
        rw [ih _ _ (by omega)]
        have hsub : 3 - acc.length = (3 - (acc ++ [g]).length) + 1 := by
          rw [hlen2]; omega
        rw [hsub, hlen2]
        simp [List.take_succ_cons, List.append_assoc]

/-- Everything the dedup keeps comes from the input list. -/
theorem dedupBySignature_subset :
    ∀ (l : List StrategyGenome) (seen : List (List ℤ)) (g : StrategyGenome),
      g ∈ dedupBySignature seen l → g ∈ l := by
  intro l
  induction l with
  | nil => intro seen g hg; simp [dedupBySignature] at hg
  | cons x rest ih =>
    intro seen g hg
    rw [dedupBySignature] at hg
    by_cases hseen : genomeSignature x ∈ seen
    · rw [if_pos hseen] at hg
      exact List.mem_cons_of_mem _ (ih _ _ hg)
    · rw [if_neg hseen] at hg
      rcases List.mem_cons.mp hg with rfl | hg2
      · exact List.mem_cons_self _ _
      · exact List.mem_cons_of_mem _ (ih _ _ hg2)

/-- The dedup output has pairwise distinct signatures, none of them
previously seen. -/
theorem dedupBySignature_pairwise :
    ∀ (l : List StrategyGenome) (seen : List (List ℤ)),
      (dedupBySignature seen l).Pairwise
        (fun a b => genomeSignature a ≠ genomeSignature b) ∧
      ∀ g ∈ dedupBySignature seen l, genomeSignature g ∉ seen := by
  intro l
  induction l with
  | nil => intro seen; simp [dedupBySignature]
  | cons x rest ih =>
    intro seen
    rw [dedupBySignature]
    by_cases hseen : genomeSignature x ∈ seen
    · rw [if_pos hseen]
      exact ih seen
    · rw [if_neg hseen]
      obtain ⟨hpair, hnot⟩ := ih (genomeSignature x :: seen)
      refine ⟨List.pairwise_cons.mpr ⟨?_, hpair⟩, ?_⟩
      · intro b hb
        have := hnot b hb
        simp only [List.mem_cons] at this
        intro heq
        exact this (Or.inl heq.symm)
      · intro g hg
        rcases List.mem_cons.mp hg with rfl | hg2
        · exact hseen
        · intro hmem
          exact hnot g hg2 (List.mem_cons_of_mem _ hmem)

/-- C9: the optimizer's final stage returns at most 3 strategies, pairwise
distinct under the rounded-gene signature, equal to the first three
entries of the signature dedup of the population ranked by descending
fitness (walk in ranked order, skip duplicates, stop at 3 or exhaustion);
`bestGenome` is the head of that list, and every returned strategy belongs
to the population. -/
theorem c9_topStrategies_spec (population : List StrategyGenome) :
    (runGeneticOptimizerFinal population).topStrategies.length ≤ 3 ∧
    (runGeneticOptimizerFinal population).topStrategies.Pairwise
      (fun a b => genomeSignature a ≠ genomeSignature b) ∧
    (runGeneticOptimizerFinal population).topStrategies =
      (dedupBySignature [] (sortByFitnessDesc population)).take 3 ∧
    (runGeneticOptimizerFinal population).bestGenome =
      (runGeneticOptimizerFinal population).topStrategies.head? ∧
    ∀ g ∈ (runGeneticOptimizerFinal population).topStrategies, g ∈ population := by
  have heq : (runGeneticOptimizerFinal population).topStrategies =
      (dedupBySignature [] (sortByFitnessDesc population)).take 3 := by
    show collectTop (sortByFitnessDesc population) [] [] = _
    rw [collectTop_eq_dedup_take _ [] [] (by norm_num)]
    simp
  refine ⟨?_, ?_, heq, rfl, ?_⟩
  · rw [heq]
    exact List.length_take_le _ _
  · rw [heq]
    exact ((dedupBySignature_pairwise _ []).1).sublist (List.take_sublist _ _)
  · intro g hg
    rw [heq] at hg
    have h1 : g ∈ dedupBySignature [] (sortByFitnessDesc population) :=
      List.mem_of_mem_take hg
    have h2 : g ∈ sortByFitnessDesc population := dedupBySignature_subset _ _ _ h1
    exact (List.perm_insertionSort _ population).mem_iff.mp h2

/-- Witness for C9: concrete application to a two-genome population with
identical signatures — one strategy survives the dedup. -/
theorem c9_topStrategies_spec_witness :
    (runGeneticOptimizerFinal [⟨[1], 5, []⟩, ⟨[1], 7, []⟩]).topStrategies.length ≤ 3 ∧
    (runGeneticOptimizerFinal [⟨[1], 5, []⟩, ⟨[1], 7, []⟩]).bestGenome =
      (runGeneticOptimizerFinal [⟨[1], 5, []⟩, ⟨[1], 7, []⟩]).topStrategies.head? :=
  ⟨(c9_topStrategies_spec _).1, (c9_topStrategies_spec _).2.2.2.1⟩

/-! ### Cash accounting invariant of the simulator (claim C1). -/

/-- An invariant holding at a fold's start and preserved by its step holds
at the fold's end. -/
theorem foldl_inv {α σ : Type} {f : σ → α → σ} {Inv : σ → Prop}
    (hstep : ∀ s x, Inv s → Inv (f s x)) :
    ∀ (l : List α) (s : σ), Inv s → Inv (l.foldl f s) := by
  intro l
  induction l with
  | nil => intro s hs; simpa using hs
  | cons x xs ih =>
    intro s hs
    rw [List.foldl_cons]
    exact ih _ (hstep s x hs)

/-- An invariant holding at a fold's start and preserved by its step holds
at every intermediate state of the fold. -/
theorem scanl_inv {α σ : Type} {f : σ → α → σ} {Inv : σ → Prop}
    (hstep : ∀ s x, Inv s → Inv (f s x)) :
    ∀ (l : List α) (s : σ), Inv s → ∀ y ∈ List.scanl f s l, Inv y := by
  intro l
  induction l with
  | nil =>
    intro s hs y hy
    simp only [List.scanl_nil, List.mem_singleton] at hy
    rw [hy]
    exact hs
  | cons x xs ih =>
    intro s hs y hy
    rw [List.scanl_cons] at hy
    simp only [List.singleton_append, List.mem_cons] at hy
    rcases hy with rfl | hy2
    · exact hs
    · exact ih _ (hstep s x hs) y hy2

/-- The cash-conservation invariant: invested plus remaining cash equals the
initial capital, cash is never negative, and every recorded trade carries a
non-negative remaining cash. -/
def CashInv (cap : ℚ) (s : SimState) : Prop :=
  s.totalInvested + s.remainingCash = cap ∧ 0 ≤ s.remainingCash ∧
  ∀ t ∈ s.trades, 0 ≤ t.remainingCash

/-- Arithmetic core of one investment step: the buy clamps to the available
cash on a shortfall, so the invested/cash sum and cash non-negativity are
preserved whatever the desired buy amount is. -/
theorem cash_arith {cash invested cap b : ℚ} (h1 : invested + cash = cap) (h2 : 0 ≤ cash) :
    ((if 0 < (if cash < b then cash else b) then invested + (if cash < b then cash else b)
        else invested) +
      (if 0 < (if cash < b then cash else b) then cash - (if cash < b then cash else b)
        else cash) = cap) ∧
    0 ≤ (if 0 < (if cash < b then cash else b) then cash - (if cash < b then cash else b)
        else cash) := by
  by_cases hins : cash < b
  · simp only [if_pos hins]
    by_cases hpos : 0 < cash
    · simp only [if_pos hpos]
      constructor <;> linarith
    · simp only [if_neg hpos]
      exact ⟨h1, h2⟩
  · simp only [if_neg hins]
    by_cases hpos : 0 < b
    · simp only [if_pos hpos]
      constructor <;> linarith
    · simp only [if_neg hpos]
      exact ⟨h1, h2⟩

/-- One simulator step preserves the cash-conservation invariant. -/
theorem step_cashInv (config : BacktestConfig) (tiers : List DrawdownTier)
    {cap : ℚ} (s : SimState) (p : PriceDataPoint) (h : CashInv cap s) :
    CashInv cap (step config tiers s p) := by
  obtain ⟨h1, h2, h3⟩ := h
  have hmax : max 0 s.remainingCash = s.remainingCash := max_eq_right h2
  have htr : ∀ (tr : TradeRecord), 0 ≤ tr.remainingCash →
      ∀ t ∈ s.trades ++ [tr], 0 ≤ t.remainingCash := by
    intro tr hc t ht
    rcases List.mem_append.mp ht with hmem | hmem
    · exact h3 t hmem
    · simp only [List.mem_singleton] at hmem
      rw [hmem]
      exact hc
  by_cases hb : p.timestamp < config.startDate
  · simp only [step, if_pos hb]
    exact ⟨h1, h2, h3⟩
  · by_cases hd : (0 ≤ Int.fdiv (p.timestamp - config.startDate) 86400000 ∧
        Int.fdiv (p.timestamp - config.startDate) 86400000 % config.dcaFrequency = 0)
    · simp only [step, if_neg hb, if_neg (not_not_intro hd), hmax]
      have harith := cash_arith (b := config.baseDcaAmount *
        getMultiplier (if 0 < max s.runningAth p.price then
          (p.price - max s.runningAth p.price) / max s.runningAth p.price else 0) tiers) h1 h2
      exact ⟨harith.1, harith.2, htr _ harith.2⟩
    · simp only [step, if_neg hb, if_pos hd]
      exact ⟨h1, h2, h3⟩

/-- C1: for every price series, configuration with positive capital and
base amount and frequency ≥ 1, and every tier table, the simulator keeps
`totalInvested + remainingCash = initialCapital` (exactly, in the rational
model) and `remainingCash ≥ 0` at every intermediate state — in particular
at every recorded trade event — and at the end of the run. -/
theorem c1_cash_invariant (prices : List PriceDataPoint) (config : BacktestConfig)
    (tiers : List DrawdownTier) (h1 : 0 < config.initialCapital)
    (h2 : 0 < config.baseDcaAmount) (h3 : 1 ≤ config.dcaFrequency) :
    (∀ s ∈ List.scanl (step config tiers) (initState config) (aggregateDailyPrices prices),
      s.totalInvested + s.remainingCash = config.initialCapital ∧ 0 ≤ s.remainingCash) ∧
    (∀ t ∈ (runBacktest prices config tiers).trades, 0 ≤ t.remainingCash) ∧
    (runBacktest prices config tiers).totalInvested +
        (finalState prices config tiers).remainingCash = config.initialCapital ∧
    0 ≤ (finalState prices config tiers).remainingCash := by
  have hstep : ∀ s p, CashInv config.initialCapital s →
      CashInv config.initialCapital (step config tiers s p) :=
    fun s p => step_cashInv config tiers s p
  have hinit : CashInv config.initialCapital (initState config) := by
    refine ⟨by simp [initState], ?_, by simp [initState]⟩
    show (0 : ℚ) ≤ config.initialCapital
    linarith
  have hall := scanl_inv hstep (aggregateDailyPrices prices) (initState config) hinit
  have hfinal : CashInv config.initialCapital (finalState prices config tiers) :=
    foldl_inv hstep (aggregateDailyPrices prices) (initState config) hinit
  refine ⟨fun s hs => ⟨(hall s hs).1, (hall s hs).2.1⟩, ?_, hfinal.1, hfinal.2.1⟩
  exact hfinal.2.2

/-- Witness for C1: concrete run with a single price point at the start
date. -/
theorem c1_cash_invariant_witness :
    (runBacktest [⟨0, 100⟩] ⟨0, 86400000, 100, 60, 1⟩ []).totalInvested +
        (finalState [⟨0, 100⟩] ⟨0, 86400000, 100, 60, 1⟩ []).remainingCash = 100 ∧
    0 ≤ (finalState [⟨0, 100⟩] ⟨0, 86400000, 100, 60, 1⟩ []).remainingCash :=
  ⟨(c1_cash_invariant [⟨0, 100⟩] ⟨0, 86400000, 100, 60, 1⟩ []
      (by norm_num) (by norm_num) (by norm_num)).2.2.1,
   (c1_cash_invariant [⟨0, 100⟩] ⟨0, 86400000, 100, 60, 1⟩ []
      (by norm_num) (by norm_num) (by norm_num)).2.2.2⟩

/-! ### Capital exhaustion behaviour (claim C6). -/

/-- C6: funds depletion is a once-recorded state transition.  (1) Once
`fundsDepleted` is set, a step never clears it nor overwrites the recorded
date.  (2) On an in-range scheduled day whose desired buy exceeds the
remaining cash, a not-yet-depleted run sets `fundsDepleted` and records
that day's date.  (3) On any such shortfall day the emitted trade invests
exactly `max 0 remainingCash` and is flagged insufficient, and the
simulation keeps processing (the step still appends its trade and updates
the running state).  (4) Scenario C: capital 100, base 60, neutral
multiplier, daily frequency — day 0 invests 60, day 1 invests 40 and sets
the depletion date, all later days invest 0 with cash 0. -/
theorem c6_funds_depletion (config : BacktestConfig) (tiers : List DrawdownTier) :
    (∀ (s : SimState) (p : PriceDataPoint), s.fundsDepleted = true →
      (step config tiers s p).fundsDepleted = true ∧
      (step config tiers s p).fundsDepletedDate = s.fundsDepletedDate) ∧
    (∀ (s : SimState) (p : PriceDataPoint),
      s.fundsDepleted = false →
      ¬ p.timestamp < config.startDate →
      (0 ≤ Int.fdiv (p.timestamp - config.startDate) 86400000 ∧
        Int.fdiv (p.timestamp - config.startDate) 86400000 % config.dcaFrequency = 0) →
      s.remainingCash < config.baseDcaAmount *
        getMultiplier (if 0 < max s.runningAth p.price then
          (p.price - max s.runningAth p.price) / max s.runningAth p.price else 0) tiers →
      (step config tiers s p).fundsDepleted = true ∧
      (step config tiers s p).fundsDepletedDate = some p.timestamp) ∧
    (∀ (s : SimState) (p : PriceDataPoint),
      ¬ p.timestamp < config.startDate →
      (0 ≤ Int.fdiv (p.timestamp - config.startDate) 86400000 ∧
        Int.fdiv (p.timestamp - config.startDate) 86400000 % config.dcaFrequency = 0) →
      s.remainingCash < config.baseDcaAmount *
        getMultiplier (if 0 < max s.runningAth p.price then
          (p.price - max s.runningAth p.price) / max s.runningAth p.price else 0) tiers →
      ∃ tr : TradeRecord, (step config tiers s p).trades = s.trades ++ [tr] ∧
        tr.amount = max 0 s.remainingCash ∧ tr.insufficientFunds = true) ∧
    ((runBacktest [⟨0, 100⟩, ⟨86400000, 100⟩, ⟨172800000, 100⟩, ⟨259200000, 100⟩]
        ⟨0, 1000000000000, 100, 60, 1⟩ []).trades.map TradeRecord.amount = [60, 40, 0, 0] ∧
      (runBacktest [⟨0, 100⟩, ⟨86400000, 100⟩, ⟨172800000, 100⟩, ⟨259200000, 100⟩]
        ⟨0, 1000000000000, 100, 60, 1⟩ []).trades.map TradeRecord.remainingCash = [40, 0, 0, 0] ∧
      (runBacktest [⟨0, 100⟩, ⟨86400000, 100⟩, ⟨172800000, 100⟩, ⟨259200000, 100⟩]
        ⟨0, 1000000000000, 100, 60, 1⟩ []).trades.map TradeRecord.insufficientFunds =
        [false, true, true, true] ∧
      (runBacktest [⟨0, 100⟩, ⟨86400000, 100⟩, ⟨172800000, 100⟩, ⟨259200000, 100⟩]
        ⟨0, 1000000000000, 100, 60, 1⟩ []).fundsDepleted = true ∧
      (runBacktest [⟨0, 100⟩, ⟨86400000, 100⟩, ⟨172800000, 100⟩, ⟨259200000, 100⟩]
        ⟨0, 1000000000000, 100, 60, 1⟩ []).fundsDepletedDate = some 86400000) := by
  refine ⟨?_, ?_, ?_, ?_⟩
  · intro s p hdep
    by_cases hb : p.timestamp < config.startDate
    · simp only [step, if_pos hb]
      exact ⟨hdep, trivial⟩
    · by_cases hd : (0 ≤ Int.fdiv (p.timestamp - config.startDate) 86400000 ∧
          Int.fdiv (p.timestamp - config.startDate) 86400000 % config.dcaFrequency = 0)
      · simp only [step, if_neg hb, if_neg (not_not_intro hd), hdep]
        norm_num
      · simp only [step, if_neg hb, if_pos hd]
        exact ⟨hdep, trivial⟩
  · intro s p hdep hb hd hins
    simp only [step, if_neg hb, if_neg (not_not_intro hd), hdep, Bool.false_eq_true,
      not_false_eq_true, and_true]
    simp only [if_pos hins]
    constructor <;> trivial
  · intro s p hb hd hins
    simp only [step, if_neg hb, if_neg (not_not_intro hd)]
    refine ⟨_, rfl, ?_, ?_⟩
    · simp only [if_pos hins]
    · exact decide_eq_true hins
  · norm_num [runBacktest, aggregateDailyPrices, buildDailyMap, mapSet, dateKey, step, initState,
      getMultiplier, List.insertionSort, List.orderedInsert, List.find?, Int.fdiv,
      max_def, min_def]

/-- Witness for C6: depletion persistence applied at a concrete depleted
state and point. -/
theorem c6_funds_depletion_witness :
    (step ⟨0, 86400000, 100, 60, 1⟩ [] ⟨100, 0, 1, 100, 0, true, some 0, []⟩
        ⟨86400000, 50⟩).fundsDepleted = true ∧
    (step ⟨0, 86400000, 100, 60, 1⟩ [] ⟨100, 0, 1, 100, 0, true, some 0, []⟩
        ⟨86400000, 50⟩).fundsDepletedDate = some 0 :=
  (c6_funds_depletion ⟨0, 86400000, 100, 60, 1⟩ []).1 ⟨100, 0, 1, 100, 0, true, some 0, []⟩
    ⟨86400000, 50⟩ rfl

/-! ### Final summary formulas (claim C5). -/

/-- Membership version of `foldl_inv`: preservation is only required for
elements of the traversed list. -/
theorem foldl_inv_mem {α σ : Type} {f : σ → α → σ} {Inv : σ → Prop} :
    ∀ (l : List α), (∀ s x, x ∈ l → Inv s → Inv (f s x)) →
      ∀ s : σ, Inv s → Inv (l.foldl f s) := by
  intro l
  induction l with
  | nil => intro _ s hs; simpa using hs
  | cons x xs ih =>
    intro hstep s hs
    rw [List.foldl_cons]
    exact ih (fun s' y hy => hstep s' y (List.mem_cons_of_mem _ hy)) _
      (hstep s x (List.mem_cons_self _ _) hs)

/-- Every element of `mapSet m k p` is an element of `m` or the new entry. -/
theorem mapSet_mem {m : List (ℤ × PriceDataPoint)} {k : ℤ} {p : PriceDataPoint}
    {e : ℤ × PriceDataPoint} (he : e ∈ mapSet m k p) : e ∈ m ∨ e = (k, p) := by
  induction m with
  | nil => simpa [mapSet] using he
  | cons kp rest ih =>
    obtain ⟨k0, p0⟩ := kp
    rw [mapSet] at he
    by_cases hk : k0 = k
    · rw [if_pos hk] at he
      rcases List.mem_cons.mp he with rfl | h2
      · subst hk
        exact Or.inr rfl
      · exact Or.inl (List.mem_cons_of_mem _ h2)
    · rw [if_neg hk] at he
      rcases List.mem_cons.mp he with rfl | h2
      · exact Or.inl (List.mem_cons_self _ _)
      · rcases ih h2 with h3 | h3
        · exact Or.inl (List.mem_cons_of_mem _ h3)
        · exact Or.inr h3

/-- Every entry of the daily map built from `l` on top of `m` comes from
`m` or pairs an input point with its own day key. -/
theorem buildDailyMap_mem :
    ∀ (l : List PriceDataPoint) (m : List (ℤ × PriceDataPoint)) (e : ℤ × PriceDataPoint),
      e ∈ l.foldl (fun m p => mapSet m (dateKey p.timestamp) p) m →
      e ∈ m ∨ (e.2 ∈ l ∧ e.1 = dateKey e.2.timestamp) := by
  intro l
  induction l with
  | nil => intro m e he; exact Or.inl (by simpa using he)
  | cons p rest ih =>
    intro m e he
    rw [List.foldl_cons] at he
    rcases ih _ e he with h2 | h2
    · rcases mapSet_mem h2 with h3 | h3
      · exact Or.inl h3
      · right
        rw [h3]
        exact ⟨List.mem_cons_self _ _, rfl⟩
    · exact Or.inr ⟨List.mem_cons_of_mem _ h2.1, h2.2⟩

/-- The aggregated daily series only contains points of the raw input. -/
theorem mem_aggregate {prices : List PriceDataPoint} {p : PriceDataPoint}
    (hp : p ∈ aggregateDailyPrices prices) : p ∈ prices := by
  have h1 : p ∈ (buildDailyMap prices).map Prod.snd :=
    (List.perm_insertionSort _ _).mem_iff.mp hp
  obtain ⟨e, he, rfl⟩ := List.mem_map.mp h1
  rcases buildDailyMap_mem prices [] e he with h2 | h2
  · simp at h2
  · exact h2.1

/-- The positivity invariant tying units to invested capital: both are
non-negative and one is positive exactly when the other is. -/
def PosInv (s : SimState) : Prop :=
  0 ≤ s.totalCoins ∧ 0 ≤ s.totalInvested ∧ (0 < s.totalCoins ↔ 0 < s.totalInvested)

/-- Arithmetic core of one buy for the positivity invariant: at a positive
price, units and invested capital grow together or not at all. -/
theorem pos_arith {coins invested A price : ℚ} (hp : 0 < price)
    (h1 : 0 ≤ coins) (h2 : 0 ≤ invested) (h3 : 0 < coins ↔ 0 < invested) :
    0 ≤ (if 0 < A then coins + A / price else coins) ∧
    0 ≤ (if 0 < A then invested + A else invested) ∧
    (0 < (if 0 < A then coins + A / price else coins) ↔
      0 < (if 0 < A then invested + A else invested)) := by
  by_cases hA : 0 < A
  · simp only [if_pos hA]
    have hdiv : 0 < A / price := div_pos hA hp
    refine ⟨by linarith, by linarith, ?_⟩
    constructor <;> intro <;> linarith
  · simp only [if_neg hA]
    exact ⟨h1, h2, h3⟩

/-- One simulator step at a positive price preserves the positivity
invariant. -/
theorem step_posInv (config : BacktestConfig) (tiers : List DrawdownTier)
    (s : SimState) (p : PriceDataPoint) (hp : 0 < p.price) (h : PosInv s) :
    PosInv (step config tiers s p) := by
  obtain ⟨h1, h2, h3⟩ := h
  by_cases hb : p.timestamp < config.startDate
  · simp only [step, if_pos hb]
    exact ⟨h1, h2, h3⟩
  · by_cases hd : (0 ≤ Int.fdiv (p.timestamp - config.startDate) 86400000 ∧
        Int.fdiv (p.timestamp - config.startDate) 86400000 % config.dcaFrequency = 0)
    · simp only [step, if_neg hb, if_neg (not_not_intro hd)]
      exact pos_arith hp h1 h2 h3
    · simp only [step, if_neg hb, if_pos hd]
      exact ⟨h1, h2, h3⟩

/-- C5 (amended): `finalValue = totalCoins × lastPrice` and
`roi = 100 × (finalValue − totalInvested)/totalInvested` (a percentage —
the source multiplies the ratio by 100) when `totalInvested > 0` else 0,
and `averagePrice = totalInvested/totalCoins` when `totalCoins > 0` else 0,
for positive input prices (the data model guarantees positive prices). -/
theorem c5_final_formulas (prices : List PriceDataPoint) (config : BacktestConfig)
    (tiers : List DrawdownTier) (hpos : ∀ p ∈ prices, 0 < p.price) :
    (runBacktest prices config tiers).finalValue =
      (runBacktest prices config tiers).totalCoins *
        (((aggregateDailyPrices prices).getLast?).map PriceDataPoint.price).getD 0 ∧
    (runBacktest prices config tiers).roi =
      (if 0 < (runBacktest prices config tiers).totalInvested then
        ((runBacktest prices config tiers).finalValue -
            (runBacktest prices config tiers).totalInvested) /
          (runBacktest prices config tiers).totalInvested * 100
      else 0) ∧
    (runBacktest prices config tiers).averagePrice =
      (if 0 < (runBacktest prices config tiers).totalCoins then
        (runBacktest prices config tiers).totalInvested /
          (runBacktest prices config tiers).totalCoins
      else 0) := by
  have hfs : PosInv (finalState prices config tiers) := by
    apply foldl_inv_mem (aggregateDailyPrices prices)
    · intro s q hq hinv
      exact step_posInv config tiers s q (hpos q (mem_aggregate hq)) hinv
    · exact ⟨le_refl 0, le_refl 0, Iff.rfl⟩
  refine ⟨rfl, rfl, ?_⟩
  show (if 0 < (finalState prices config tiers).totalInvested then
      (finalState prices config tiers).totalInvested /
        (finalState prices config tiers).totalCoins
    else 0) =
    (if 0 < (finalState prices config tiers).totalCoins then
      (finalState prices config tiers).totalInvested /
        (finalState prices config tiers).totalCoins
    else 0)
  by_cases hi : 0 < (finalState prices config tiers).totalInvested
  · rw [if_pos hi, if_pos (hfs.2.2.mpr hi)]
  · rw [if_neg hi, if_neg (fun hc => hi (hfs.2.2.mp hc))]

/-- Witness for C5: concrete run with a single positive-price point. -/
theorem c5_final_formulas_witness :
    (runBacktest [⟨0, 100⟩] ⟨0, 86400000, 100, 60, 1⟩ []).finalValue =
      (runBacktest [⟨0, 100⟩] ⟨0, 86400000, 100, 60, 1⟩ []).totalCoins *
        (((aggregateDailyPrices [⟨0, 100⟩]).getLast?).map PriceDataPoint.price).getD 0 ∧
    (runBacktest [⟨0, 100⟩] ⟨0, 86400000, 100, 60, 1⟩ []).averagePrice =
      (if 0 < (runBacktest [⟨0, 100⟩] ⟨0, 86400000, 100, 60, 1⟩ []).totalCoins then
        (runBacktest [⟨0, 100⟩] ⟨0, 86400000, 100, 60, 1⟩ []).totalInvested /
          (runBacktest [⟨0, 100⟩] ⟨0, 86400000, 100, 60, 1⟩ []).totalCoins
      else 0) :=
  ⟨(c5_final_formulas [⟨0, 100⟩] ⟨0, 86400000, 100, 60, 1⟩ []
      (by intro p hp; simp at hp; rw [hp]; norm_num)).1,
   (c5_final_formulas [⟨0, 100⟩] ⟨0, 86400000, 100, 60, 1⟩ []
      (by intro p hp; simp at hp; rw [hp]; norm_num)).2.2⟩

/-- C5 counterexample: the claim states the plain ratio, but the source
stores `roi` as a percentage.  Buying 50 at price 100 and 50 at price 200
out of capital 100 yields finalValue 150 and totalInvested 100: the code's
`roi` is 50, while `(finalValue − totalInvested)/totalInvested = 1/2`. -/
theorem c5_counterexample :
    (runBacktest [⟨0, 100⟩, ⟨86400000, 200⟩] ⟨0, 1000000000000, 100, 50, 1⟩ []).roi = 50 ∧
    0 < (runBacktest [⟨0, 100⟩, ⟨86400000, 200⟩] ⟨0, 1000000000000, 100, 50, 1⟩ []).totalInvested ∧
    ((runBacktest [⟨0, 100⟩, ⟨86400000, 200⟩] ⟨0, 1000000000000, 100, 50, 1⟩ []).finalValue -
        (runBacktest [⟨0, 100⟩, ⟨86400000, 200⟩] ⟨0, 1000000000000, 100, 50, 1⟩ []).totalInvested) /
      (runBacktest [⟨0, 100⟩, ⟨86400000, 200⟩] ⟨0, 1000000000000, 100, 50, 1⟩ []).totalInvested
      = 1/2 ∧
    (50 : ℚ) ≠ 1/2 := by
  norm_num [runBacktest, aggregateDailyPrices, buildDailyMap, mapSet, dateKey, step, initState,
    getMultiplier, List.insertionSort, List.orderedInsert, List.find?, Int.fdiv,
    max_def, min_def]

/-! ### Maximum drawdown over the in-range series (claim C8). -/

/-- The drawdowns of the in-range points of a daily series (points dated on
or after `start`), with the running all-time-high accrued from `ath`
over all points — including warm-up points before `start`. -/
def ddList (start : ℤ) (ath : ℚ) : List PriceDataPoint → List ℚ
  | [] => []
  | p :: rest =>
    let a := max ath p.price
    let dd := if 0 < a then (p.price - a) / a else 0
    if start ≤ p.timestamp then dd :: ddList start a rest else ddList start a rest

/-- The running minimum maintained by the simulator loop equals the fold of
`min` over the in-range drawdown list. -/
theorem foldl_maxDrawdown (config : BacktestConfig) (tiers : List DrawdownTier) :
    ∀ (l : List PriceDataPoint) (s : SimState),
      (l.foldl (step config tiers) s).maxDrawdown =
        (ddList config.startDate s.runningAth l).foldl min s.maxDrawdown := by
  intro l
  induction l with
  | nil => intro s; simp [ddList]
  | cons p rest ih =>
    intro s
    rw [List.foldl_cons]
    by_cases hb : p.timestamp < config.startDate
    · have hath : (step config tiers s p).runningAth = max s.runningAth p.price := by
        simp [step, if_pos hb]
      have hdd : (step config tiers s p).maxDrawdown = s.maxDrawdown := by
        simp [step, if_pos hb]
      rw [ih (step config tiers s p), hath, hdd]
      simp only [ddList]
      rw [if_neg (not_le.mpr hb)]
    · have hath : (step config tiers s p).runningAth = max s.runningAth p.price := by
        simp only [step, if_neg hb]
        split_ifs <;> rfl
      have hdd : (step config tiers s p).maxDrawdown =
          min s.maxDrawdown (if 0 < max s.runningAth p.price then
            (p.price - max s.runningAth p.price) / max s.runningAth p.price else 0) := by
        simp only [step, if_neg hb]
        split_ifs <;> rfl
      rw [ih (step config tiers s p), hath, hdd]
      simp only [ddList]
      rw [if_pos (not_lt.mp hb)]
      rw [List.foldl_cons]

/-- A fold of `min` starting at 0 over a list of non-negative values
stays 0. -/
theorem foldl_min_zero : ∀ (l : List ℚ), (∀ d ∈ l, 0 ≤ d) → l.foldl min 0 = 0 := by
  intro l
  induction l with
  | nil => intro _; rfl
  | cons d rest ih =>
    intro hall
    rw [List.foldl_cons, min_eq_left (hall d (List.mem_cons_self _ _))]
    exact ih fun e he => hall e (List.mem_cons_of_mem _ he)

/-- C8 (amended): the returned `maxDrawdown` equals 100 times the minimum
(together with 0) of the drawdowns of the in-range daily points — points
before `startDate` feed the running ATH but never the minimum — and it is
0 when no in-range point lies below the running ATH.  (The claim as
written omits the factor 100: the source converts to percent.) -/
theorem c8_maxDrawdown_spec (prices : List PriceDataPoint) (config : BacktestConfig)
    (tiers : List DrawdownTier) :
    (runBacktest prices config tiers).maxDrawdown =
      ((ddList config.startDate 0 (aggregateDailyPrices prices)).foldl min 0) * 100 ∧
    ((∀ d ∈ ddList config.startDate 0 (aggregateDailyPrices prices), 0 ≤ d) →
      (runBacktest prices config tiers).maxDrawdown = 0) := by
  have hmain : (runBacktest prices config tiers).maxDrawdown =
      ((ddList config.startDate 0 (aggregateDailyPrices prices)).foldl min 0) * 100 := by
    show (finalState prices config tiers).maxDrawdown * 100 = _
    rw [show finalState prices config tiers =
      (aggregateDailyPrices prices).foldl (step config tiers) (initState config) from rfl]
    rw [foldl_maxDrawdown config tiers (aggregateDailyPrices prices) (initState config)]
    rfl
  refine ⟨hmain, ?_⟩
  intro hall
  rw [hmain, foldl_min_zero _ hall]
  norm_num

/-- Witness for C8: a flat one-point series has drawdown list `[0]` and
returned maxDrawdown 0. -/
theorem c8_maxDrawdown_spec_witness :
    (runBacktest [⟨0, 100⟩] ⟨0, 86400000, 100, 60, 1⟩ []).maxDrawdown = 0 :=
  (c8_maxDrawdown_spec [⟨0, 100⟩] ⟨0, 86400000, 100, 60, 1⟩ []).2
    (by
      intro d hd
      norm_num [ddList, aggregateDailyPrices, buildDailyMap, mapSet, dateKey,
        List.insertionSort, List.orderedInsert, max_def] at hd
      rw [hd])

/-- C8 counterexample: with a warm-up point at price 100 before the start
date and an in-range point at 50, the only in-range drawdown is −1/2, but
the source returns `maxDrawdown = −50` (percent), not −1/2 as the claim's
equality reads. -/
theorem c8_counterexample :
    (runBacktest [⟨0, 100⟩, ⟨86400000, 50⟩]
        ⟨86400000, 1000000000000, 100, 50, 1⟩ []).maxDrawdown = -50 ∧
    (ddList 86400000 0 (aggregateDailyPrices [⟨0, 100⟩, ⟨86400000, 50⟩])).foldl min 0
      = -(1/2) ∧
    ((-50 : ℚ) ≠ -(1/2)) := by
  refine ⟨?_, ?_, by norm_num⟩
  · norm_num [runBacktest, aggregateDailyPrices, buildDailyMap, mapSet, dateKey, step, initState,
      getMultiplier, List.insertionSort, List.orderedInsert, List.find?, Int.fdiv,
      max_def, min_def]
  · norm_num [ddList, aggregateDailyPrices, buildDailyMap, mapSet, dateKey,
      List.insertionSort, List.orderedInsert, max_def, min_def]

/-! ### Daily aggregation: one point per calendar day, last write wins
(claim C4). -/

/-- Lookup in the association-list model of the daily `Map`. -/
def alookup (k : ℤ) : List (ℤ × PriceDataPoint) → Option PriceDataPoint
  | [] => none
  | (k0, p) :: rest => if k0 = k then some p else alookup k rest

/-- Lookup after a `Map.set`: the new entry shadows the old one for its
key and nothing else changes. -/
theorem alookup_mapSet (k2 k : ℤ) (p : PriceDataPoint) :
    ∀ m : List (ℤ × PriceDataPoint),
      alookup k2 (mapSet m k p) = if k2 = k then some p else alookup k2 m := by
  intro m
  induction m with
  | nil =>
    simp only [mapSet, alookup]
    by_cases h : k = k2
    · rw [if_pos h, if_pos h.symm]
    · rw [if_neg h, if_neg (fun h2 => h h2.symm)]
  | cons kp rest ih =>
    obtain ⟨k0, p0⟩ := kp
    rw [mapSet]
    by_cases h0 : k0 = k
    · rw [if_pos h0]
      by_cases h2 : k2 = k
      · rw [alookup, if_pos (h0.trans h2.symm), if_pos h2]
      · rw [alookup, if_neg (fun h3 => h2 (h3.symm.trans h0)), if_neg h2, alookup,
          if_neg (fun h3 => h2 (h3.symm.trans h0))]
    · rw [if_neg h0]
      by_cases h2 : k0 = k2
      · rw [alookup, if_pos h2, if_neg (fun h3 => h0 (h2.trans h3)), alookup, if_pos h2]
      · rw [alookup, if_neg h2, ih, alookup, if_neg h2]

/-- Splitting the last matching element of a filtered cons. -/
theorem getLast?_filter_cons (f : PriceDataPoint → Bool) (p : PriceDataPoint)
    (rest : List PriceDataPoint) :
    ((p :: rest).filter f).getLast? =
      match (rest.filter f).getLast? with
      | some q => some q
      | none => if f p then some p else none := by
  have hnil : ∀ l : List PriceDataPoint, l.getLast? = none ↔ l = [] := by
    intro l
    cases l with
    | nil => simp
    | cons a t => simp [List.getLast?_eq_getLast_of_ne_nil]
  rw [List.filter_cons]
  cases hlast : (rest.filter f).getLast? with
  | some q =>
    have hne : rest.filter f ≠ [] := by
      intro h
      rw [h] at hlast
      simp at hlast
    by_cases hf : f p
    · rw [if_pos hf]
      obtain ⟨b, t, hbt⟩ : ∃ b t, rest.filter f = b :: t := by
        cases h : rest.filter f with
        | nil => exact absurd h hne
        | cons b t => exact ⟨b, t, rfl⟩
      rw [hbt]
      rw [hbt] at hlast
      rw [List.getLast?_cons_cons, hlast]
    · rw [if_neg hf, hlast]
  | none =>
    have hempty : rest.filter f = [] := (hnil _).mp hlast
    by_cases hf : f p
    · rw [if_pos hf, hempty]
      simp [hf]
    · rw [if_neg hf, hempty]
      simp [hf]

/-- Lookup in the daily map built over `l` on top of `m`: the last input
point of that day wins; days absent from `l` fall through to `m`. -/
theorem buildFrom_alookup (k : ℤ) :
    ∀ (l : List PriceDataPoint) (m : List (ℤ × PriceDataPoint)),
      alookup k (l.foldl (fun m p => mapSet m (dateKey p.timestamp) p) m) =
        match (l.filter (fun q => decide (dateKey q.timestamp = k))).getLast? with
        | some p => some p
        | none => alookup k m := by
  intro l
  induction l with
  | nil => intro m; simp
  | cons p rest ih =>
    intro m
    rw [List.foldl_cons, ih, getLast?_filter_cons]
    cases hlast : (rest.filter (fun q => decide (dateKey q.timestamp = k))).getLast? with
    | some q => rfl
    | none =>
      simp only
      rw [alookup_mapSet]
      by_cases hk : dateKey p.timestamp = k
      · rw [if_pos hk.symm, if_pos (decide_eq_true hk)]
      · rw [if_neg (fun h => hk h.symm), if_neg (by simpa using hk)]

/-- A successful lookup names an entry of the list. -/
theorem alookup_mem {k : ℤ} {p : PriceDataPoint} :
    ∀ {m : List (ℤ × PriceDataPoint)}, alookup k m = some p → (k, p) ∈ m := by
  intro m
  induction m with
  | nil => intro h; simp [alookup] at h
  | cons kp rest ih =>
    obtain ⟨k0, p0⟩ := kp
    intro h
    rw [alookup] at h
    by_cases h0 : k0 = k
    · rw [if_pos h0] at h
      obtain rfl : p0 = p := by simpa using h
      rw [h0]
      exact List.mem_cons_self _ _
    · rw [if_neg h0] at h
      exact List.mem_cons_of_mem _ (ih h)

/-- On a map with distinct keys, every entry is found by lookup. -/
theorem mem_alookup {k : ℤ} {p : PriceDataPoint} :
    ∀ {m : List (ℤ × PriceDataPoint)}, (m.map Prod.fst).Nodup →
      (k, p) ∈ m → alookup k m = some p := by
  intro m
  induction m with
  | nil => intro _ h; simp at h
  | cons kp rest ih =>
    obtain ⟨k0, p0⟩ := kp
    intro hnd hmem
    rw [List.map_cons, List.nodup_cons] at hnd
    rcases List.mem_cons.mp hmem with heq | h2
    · obtain ⟨rfl, rfl⟩ : k = k0 ∧ p = p0 := by simpa using heq
      rw [alookup, if_pos rfl]
    · rw [alookup]
      have hk0 : k0 ≠ k := by
        intro h
        subst h
        exact hnd.1 (List.mem_map.mpr ⟨(k0, p), h2, rfl⟩)
      rw [if_neg hk0]
      exact ih hnd.2 h2

/-- Keys of a map after `Map.set` come from the old keys or the new key. -/
theorem mem_keys_mapSet {x k : ℤ} {p : PriceDataPoint} :
    ∀ {m : List (ℤ × PriceDataPoint)},
      x ∈ (mapSet m k p).map Prod.fst → x ∈ m.map Prod.fst ∨ x = k := by
  intro m
  induction m with
  | nil => intro h; simp [mapSet] at h; exact Or.inr h
  | cons kp rest ih =>
    obtain ⟨k0, p0⟩ := kp
    intro h
    rw [mapSet] at h
    by_cases h0 : k0 = k
    · rw [if_pos h0] at h
      simp only [List.map_cons, List.mem_cons] at h ⊢
      rcases h with rfl | h2
      · exact Or.inl (Or.inl rfl)
      · exact Or.inl (Or.inr h2)
    · rw [if_neg h0] at h
      simp only [List.map_cons, List.mem_cons] at h ⊢
      rcases h with rfl | h2
      · exact Or.inl (Or.inl rfl)
      · rcases ih h2 with h3 | h3
        · exact Or.inl (Or.inr h3)
        · exact Or.inr h3

/-- `Map.set` keeps the keys distinct. -/
theorem nodup_keys_mapSet {k : ℤ} {p : PriceDataPoint} :
    ∀ {m : List (ℤ × PriceDataPoint)}, (m.map Prod.fst).Nodup →
      ((mapSet m k p).map Prod.fst).Nodup := by
  intro m
  induction m with
  | nil => intro _; simp [mapSet]
  | cons kp rest ih =>
    obtain ⟨k0, p0⟩ := kp
    intro hnd
    rw [List.map_cons, List.nodup_cons] at hnd
    rw [mapSet]
    by_cases h0 : k0 = k
    · rw [if_pos h0]
      rw [List.map_cons, List.nodup_cons]
      exact ⟨hnd.1, hnd.2⟩
    · rw [if_neg h0]
      rw [List.map_cons, List.nodup_cons]
      refine ⟨?_, ih hnd.2⟩
      intro hmem
      rcases mem_keys_mapSet hmem with h2 | h2
      · exact hnd.1 h2
      · exact h0 h2

/-- The daily map built over any input has distinct keys. -/
theorem nodup_keys_buildFrom :
    ∀ (l : List PriceDataPoint) (m : List (ℤ × PriceDataPoint)),
      (m.map Prod.fst).Nodup →
      ((l.foldl (fun m p => mapSet m (dateKey p.timestamp) p) m).map Prod.fst).Nodup := by
  intro l
  induction l with
  | nil => intro m h; simpa using h
  | cons p rest ih =>
    intro m h
    rw [List.foldl_cons]
    exact ih _ (nodup_keys_mapSet h)

/-- C4 (amended): `aggregateDailyPrices` returns exactly one point per UTC
calendar day present in the input, sorted ascending by timestamp, where
the retained point of a day is the tick appearing LAST IN INPUT ORDER for
that day (`map.set` overwrites in input order) — the chronologically last
tick only when the input is chronologically ordered; the empty input
yields the empty output. -/
theorem c4_aggregate_spec (prices : List PriceDataPoint) :
    (∀ p ∈ aggregateDailyPrices prices, p ∈ prices) ∧
    (∀ p ∈ prices, ∃ q ∈ aggregateDailyPrices prices,
      dateKey q.timestamp = dateKey p.timestamp) ∧
    (aggregateDailyPrices prices).Pairwise
      (fun a b => dateKey a.timestamp ≠ dateKey b.timestamp) ∧
    (aggregateDailyPrices prices).Pairwise (fun a b => a.timestamp ≤ b.timestamp) ∧
    (∀ p ∈ aggregateDailyPrices prices,
      (prices.filter (fun q => decide (dateKey q.timestamp = dateKey p.timestamp))).getLast?
        = some p) ∧
    (prices = [] → aggregateDailyPrices prices = []) := by
  have hperm := List.perm_insertionSort
    (fun a b : PriceDataPoint => a.timestamp ≤ b.timestamp)
    ((buildDailyMap prices).map Prod.snd)
  have hnodup : ((buildDailyMap prices).map Prod.fst).Nodup :=
    nodup_keys_buildFrom prices [] (by simp)
  have hentry : ∀ e ∈ buildDailyMap prices, e.1 = dateKey e.2.timestamp := by
    intro e he
    rcases buildDailyMap_mem prices [] e he with h | h
    · simp at h
    · exact h.2
  refine ⟨fun p hp => mem_aggregate hp, ?_, ?_, List.sorted_insertionSort _ _, ?_, ?_⟩
  · intro p hp
    have hlook := buildFrom_alookup (dateKey p.timestamp) prices []
    have hmemf : p ∈ prices.filter
        (fun q => decide (dateKey q.timestamp = dateKey p.timestamp)) :=
      List.mem_filter.mpr ⟨hp, by simp⟩
    have hne : prices.filter
        (fun q => decide (dateKey q.timestamp = dateKey p.timestamp)) ≠ [] :=
      List.ne_nil_of_mem hmemf
    obtain ⟨q, hq⟩ : ∃ q, (prices.filter
        (fun r => decide (dateKey r.timestamp = dateKey p.timestamp))).getLast? = some q :=
      ⟨_, List.getLast?_eq_getLast_of_ne_nil hne⟩
    have hqmem : q ∈ prices.filter
        (fun r => decide (dateKey r.timestamp = dateKey p.timestamp)) :=
      List.mem_of_mem_getLast? hq
    have hqday : dateKey q.timestamp = dateKey p.timestamp := by
      simpa using (List.mem_filter.mp hqmem).2
    rw [hq] at hlook
    have hqin : (dateKey p.timestamp, q) ∈ buildDailyMap prices := alookup_mem hlook
    refine ⟨q, ?_, hqday⟩
    exact hperm.mem_iff.mpr (List.mem_map.mpr ⟨_, hqin, rfl⟩)
  · have h1 : (buildDailyMap prices).Pairwise (fun e1 e2 => e1.1 ≠ e2.1) :=
      List.pairwise_map.mp hnodup
    have h2 : (buildDailyMap prices).Pairwise
        (fun e1 e2 => dateKey e1.2.timestamp ≠ dateKey e2.2.timestamp) := by
      refine h1.imp_of_mem ?_
      intro a b ha hb hne heq
      exact hne (by rw [hentry a ha, hentry b hb, heq])
    have h3 : ((buildDailyMap prices).map Prod.snd).Pairwise
        (fun a b => dateKey a.timestamp ≠ dateKey b.timestamp) :=
      List.pairwise_map.mpr h2
    exact (hperm.pairwise_iff fun h => h ∘ Eq.symm).mpr h3
  · intro p hp
    have hmem : p ∈ (buildDailyMap prices).map Prod.snd := hperm.mem_iff.mp hp
    obtain ⟨e, he, rfl⟩ := List.mem_map.mp hmem
    have hkey : e.1 = dateKey e.2.timestamp := hentry e he
    have hlook : alookup e.1 (buildDailyMap prices) = some e.2 :=
      mem_alookup hnodup (by rw [show (e.1, e.2) = e from rfl]; exact he)
    have hfold : alookup e.1 (buildDailyMap prices) =
        match (prices.filter (fun q => decide (dateKey q.timestamp = e.1))).getLast? with
        | some p => some p
        | none => alookup e.1 [] :=
      buildFrom_alookup e.1 prices []
    rw [hlook] at hfold
    rw [← hkey]
    cases hlast : (prices.filter (fun q => decide (dateKey q.timestamp = e.1))).getLast? with
    | some q =>
      rw [hlast] at hfold
      simp only at hfold
      obtain rfl : q = e.2 := by simpa using hfold.symm
      rfl
    | none =>
      rw [hlast] at hfold
      simp [alookup] at hfold
  · intro h
    rw [h]
    rfl

/-- C4 counterexample: two ticks of the same UTC day given in reverse
chronological order — the aggregator retains the tick that came last in the
INPUT (timestamp 86400000), not the chronologically last tick of the day
(timestamp 86401000). -/
theorem c4_counterexample :
    aggregateDailyPrices [⟨86401000, 5⟩, ⟨86400000, 7⟩] = [⟨86400000, 7⟩] ∧
    dateKey 86401000 = dateKey 86400000 ∧
    (86400000 : ℤ) < 86401000 ∧
    ([(⟨86400000, 7⟩ : PriceDataPoint)] ≠ [⟨86401000, 5⟩]) := by
  refine ⟨?_, by decide, by norm_num, ?_⟩
  · norm_num [aggregateDailyPrices, buildDailyMap, mapSet, dateKey,
      List.insertionSort, List.orderedInsert]
  · intro h
    have h2 : (⟨86400000, 7⟩ : PriceDataPoint) = ⟨86401000, 5⟩ := by
      simpa using h
    have := congrArg PriceDataPoint.timestamp h2
    norm_num at this

/-- Witness for C4: the empty-input clause applied concretely. -/
theorem c4_aggregate_spec_witness : aggregateDailyPrices [] = [] :=
  (c4_aggregate_spec []).2.2.2.2.2 rfl
